import Mathlib

/-
Verification of poly_exp.hpp (namespace subarray): two maximum-subarray
algorithms (exhaustive and divide-and-conquer) and one subset-sum algorithm.

Shallow embedding conventions:
  a std::vector of int is a List Int; iterators into the vector are Nat
  indices; int arithmetic is carried out in Int (the claims under study are
  about the algorithms, and the one width-sensitive computation in the file,
  the mask bound 1 << size at line 197, is modelled separately by
  shlOneDefined below).
-/

set_option maxRecDepth 10000

/-- Sum of the elements of v with index in the half-open range from i to j
(the C++ std::accumulate over that iterator range). Out-of-range indices
contribute 0; every use below stays in range. -/
def sumRange (v : List Int) (i j : Nat) : Int :=
  ((List.Ico i j).map (fun k => v.getD k 0)).sum

/-- Model of class summed_span: the two iterators are stored as indices
begin_ and end_ into the owning vector, together with the stored sum. The
C++ one-argument constructor asserts begin < end; the model records the
fields and the assertion is studied as a proposition about them. -/
structure summed_span where
  begin_ : Nat
  end_ : Nat
  sum : Int
deriving DecidableEq, Repr

/-- Model of the two-argument summed_span constructor, which computes the
stored sum with std::accumulate over the range. -/
def spanOf (v : List Int) (b e : Nat) : summed_span :=
  ⟨b, e, sumRange v b e⟩

/-- Model of summed_span operator==: two spans are equal exactly when both
iterators agree; the stored sums are not compared. -/
def spanBeq (s t : summed_span) : Bool :=
  (s.begin_ == t.begin_) && (s.end_ == t.end_)

/-- Update step of the exhaustive scan: replace the current best candidate
by the new one exactly when the new one scores strictly higher (the C++
test sumItoJ > sumBtoE). Stated generically over a scoring function. -/
def pickFirst {α : Type} (f : α → Int) (b x : α) : α :=
  if f b < f x then x else b

/-- Candidate index pairs of max_subarray_exh, in the scan order of its two
loops: i ascends over 0..n-1 and, inside, j ascends over i+1..n. -/
def exhPairs (n : Nat) : List (Nat × Nat) :=
  ((List.range n).map (fun i => (List.Ico (i + 1) (n + 1)).map (fun j => (i, j)))).flatten

/-- Model of max_subarray_exh (lines 72-107): starting from the default
best (0, 1), scan all pairs in loop order, keeping a pair only when its
range sums strictly higher than the current best; the returned span is
built with the two-argument constructor, so its sum is recomputed from the
vector. The two branches at lines 101-106 build the same range. -/
def max_subarray_exh (v : List Int) : summed_span :=
  let p := (exhPairs v.length).foldl (pickFirst (fun q => sumRange v q.1 q.2)) (0, 1)
  spanOf v p.1 p.2

/-- Left scan of crossing_max_subarray (lines 121-129): indices low+cnt-1
down to low are processed, accumulating trueSum and recording in (sumL, b)
the best running total and where it was reached. The initial sumL is the
sentinel -99999999 from line 115. -/
def leftloop (v : List Int) (low : Nat) : Nat → Int → Int → Nat → Int × Nat
  | 0, _, sumL, b => (sumL, b)
  | cnt + 1, trueSum, sumL, b =>
    let t := trueSum + v.getD (low + cnt) 0
    if sumL < t then leftloop v low cnt t t (low + cnt)
    else leftloop v low cnt t sumL b

/-- Right scan of crossing_max_subarray (lines 130-139): indices j up to
j+cnt-1 are processed in ascending order, accumulating trueSum and
recording in (sumR, e) the best running total and where it was reached. -/
def rightloop (v : List Int) : Nat → Nat → Int → Int → Nat → Int × Nat
  | _, 0, _, sumR, e => (sumR, e)
  | j, cnt + 1, trueSum, sumR, e =>
    let t := trueSum + v.getD j 0
    if sumR < t then rightloop v (j + 1) cnt t t j
    else rightloop v (j + 1) cnt t sumR e

/-- Model of crossing_max_subarray (lines 113-148). The left scan covers
indices middle down to low (count middle+1-low), the right scan covers
middle+1 up to high (count high-middle). Both final branches construct the
span over indices b to e+1 exclusive with the two-argument constructor:
when e+1 equals the size, the end iterator is input.end, the same range. -/
def crossing_max_subarray (v : List Int) (low middle high : Nat) : summed_span :=
  let L := leftloop v low (middle + 1 - low) 0 (-99999999) 0
  let R := rightloop v (middle + 1) (high - middle) 0 (-99999999) 0
  spanOf v L.2 (R.2 + 1)

/-- Split point of maximum_subarray_recurse at line 158: avg = (low+high)/2
in integer division. -/
def split_mid (low high : Nat) : Nat :=
  (low + high) / 2

/-- Model of maximum_subarray_recurse (lines 151-177). The C++ code takes
the base case on low == high and recurses otherwise; the function is only
invoked with low ≤ high, where that test and the guard low < high used
here coincide (for low > high the C++ recursion would never reach its base
case). The combine step returns the crossing span only when its sum
strictly beats both halves, the left span only when its sum strictly beats
the other two, and otherwise the right span. -/
def maximum_subarray_recurse (v : List Int) (low high : Nat) : summed_span :=
  if h : low < high then
    let avg := split_mid low high
    let onLeft := maximum_subarray_recurse v low avg
    let onRight := maximum_subarray_recurse v (avg + 1) high
    let crossing := crossing_max_subarray v low avg high
    if onLeft.sum < crossing.sum ∧ onRight.sum < crossing.sum then crossing
    else if onRight.sum < onLeft.sum ∧ crossing.sum < onLeft.sum then onLeft
    else onRight
  else spanOf v low (low + 1)
termination_by high - low
decreasing_by
  · simp only [split_mid]; omega
  · simp only [split_mid]; omega

/-- Model of max_subarray_dbh (lines 178-183). -/
def max_subarray_dbh (v : List Int) : summed_span :=
  maximum_subarray_recurse v 0 (v.length - 1)

/-- Elements of v selected by the set bits of mask, in ascending bit
position (the order in which subset_sum_exh pushes them into candidate):
bit 0 selects the head, bit k+1 selects position k+1. -/
def selection : List Int → Nat → List Int
  | [], _ => []
  | a :: l, m => if m % 2 = 1 then a :: selection l (m / 2) else selection l (m / 2)

/-- Candidate vector held by subset_sum_exh after its inner loop has
processed bit positions 0..j of mask m: the selection of the low j+1 bits
of m. -/
def candAt (v : List Int) (m j : Nat) : List Int :=
  selection v (m % 2 ^ (j + 1))

/-- Test performed at lines 208-216 after each bit position j: the current
candidate is returned when it is non-empty and sums to target. -/
def hitCheck (v : List Int) (target : Int) (m j : Nat) : Option (List Int) :=
  if candAt v m j ≠ [] ∧ (candAt v m j).sum = target then some (candAt v m j) else none

/-- First some-result of f along a list; models a loop whose body can
return early. -/
def firstHit {α β : Type} (f : α → Option β) : List α → Option β
  | [] => none
  | a :: l =>
    match f a with
    | some b => some b
    | none => firstHit f l

/-- Inner loop of subset_sum_exh (lines 202-217) for one mask value m: bit
positions 0..size-1 are processed in order and the first qualifying
candidate, if any, is returned. -/
def innerLoop (v : List Int) (target : Int) (m : Nat) : Option (List Int) :=
  firstHit (hitCheck v target m) (List.range v.length)

/-- Model of subset_sum_exh (lines 191-221): masks 0, 1, ... are tried in
ascending numeric order and the first hit is returned; when the mask space
is exhausted the result is the absent optional. The loop bound is the
value 2^size that the expression 1 << input.size() at line 197 denotes on
the range where that int shift is defined; shlOneDefined below models the
definedness of that expression itself. -/
def subset_sum_exh (v : List Int) (target : Int) : Option (List Int) :=
  firstHit (innerLoop v target) (List.range (2 ^ v.length))

/-- Definedness of the C++ expression 1 << s at line 197, where the
literal 1 has type int. For an int of w bits (one sign bit, w-1 value
bits), the shift is defined exactly when s is below the width and the
value 2^s is representable, i.e. at most 2^(w-1) - 1. -/
def shlOneDefined (w s : Nat) : Prop :=
  s < w ∧ 2 ^ s ≤ 2 ^ (w - 1) - 1

/-- Best sum of a range that ends just after mid and starts at some index
between low and mid: the target of the left scan of
crossing_max_subarray. -/
def bestLeft (v : List Int) (low mid : Nat) : Int :=
  ((List.Ico low (mid + 1)).map (fun k => sumRange v k (mid + 1))).foldl max
    (sumRange v mid (mid + 1))

/-- Best sum of a range that starts at mid+1 and ends at some index between
mid+1 and high inclusive: the target of the right scan of
crossing_max_subarray. -/
def bestRight (v : List Int) (mid high : Nat) : Int :=
  ((List.Ico (mid + 1) (high + 1)).map (fun k => sumRange v (mid + 1) (k + 1))).foldl max
    (sumRange v (mid + 1) (mid + 2))

/-- Splitting a summation range at an interior point. -/
theorem sumRange_append (v : List Int) {i k j : Nat} (h1 : i ≤ k) (h2 : k ≤ j) :
    sumRange v i j = sumRange v i k + sumRange v k j := by
  unfold sumRange
  rw [← List.Ico.append_consecutive h1 h2, List.map_append, List.sum_append]

/-- Summation over a one-element range. -/
theorem sumRange_single (v : List Int) (i : Nat) : sumRange v i (i + 1) = v.getD i 0 := by
  unfold sumRange
  rw [List.Ico.succ_singleton]
  simp

/-- Summation over a non-empty range of strictly negative entries is strictly
negative. -/
theorem sumRange_neg (v : List Int) (i j : Nat) (hij : i < j) (hj : j ≤ v.length)
    (hall : ∀ k, k < v.length → v.getD k 0 < 0) : sumRange v i j < 0 := by
  induction j with
  | zero => omega
  | succ j ih =>
    rcases Nat.lt_or_ge i j with h | h
    · have hs : sumRange v i (j + 1) = sumRange v i j + sumRange v j (j + 1) :=
        sumRange_append v (by omega) (by omega)
      rw [hs, sumRange_single]
      have h1 := ih h (by omega)
      have h2 := hall j (by omega)
      omega
    · have hi : i = j := by omega
      rw [hi, sumRange_single]
      exact hall j (by omega)

/-- Reduction of pickFirst when the candidate scores strictly higher. -/
theorem pickFirst_pos {α : Type} (f : α → Int) {b x : α} (h : f b < f x) :
    pickFirst f b x = x := if_pos h

/-- Reduction of pickFirst when the candidate does not score strictly higher. -/
theorem pickFirst_neg {α : Type} (f : α → Int) {b x : α} (h : ¬ f b < f x) :
    pickFirst f b x = b := if_neg h

/-- The score of a pickFirst fold never drops below the score of the seed. -/
theorem le_foldl_pickFirst {α : Type} (f : α → Int) :
    ∀ (l : List α) (b : α), f b ≤ f (l.foldl (pickFirst f) b)
  | [], _ => le_refl _
  | x :: l, b => by
    rw [List.foldl_cons]
    have h1 : f b ≤ f (pickFirst f b x) := by
      unfold pickFirst; split
      · exact le_of_lt (by assumption)
      · exact le_refl _
    exact le_trans h1 (le_foldl_pickFirst f l (pickFirst f b x))

/-- The score of a pickFirst fold dominates the score of every scanned
element. -/
theorem foldl_pickFirst_le {α : Type} (f : α → Int) :
    ∀ (l : List α) (b x : α), x ∈ l → f x ≤ f (l.foldl (pickFirst f) b)
  | y :: l, b, x, hx => by
    rw [List.foldl_cons]
    rcases List.mem_cons.mp hx with h | h
    · subst h
      have h1 : f x ≤ f (pickFirst f b x) := by
        unfold pickFirst; split
        · exact le_refl _
        · exact le_of_not_lt (by assumption)
      exact le_trans h1 (le_foldl_pickFirst f l (pickFirst f b x))
    · exact foldl_pickFirst_le f l (pickFirst f b y) x h

/-- The result of a pickFirst fold is the seed or a scanned element. -/
theorem foldl_pickFirst_mem {α : Type} (f : α → Int) :
    ∀ (l : List α) (b : α), l.foldl (pickFirst f) b = b ∨ l.foldl (pickFirst f) b ∈ l
  | [], _ => Or.inl rfl
  | x :: l, b => by
    rw [List.foldl_cons]
    rcases foldl_pickFirst_mem f l (pickFirst f b x) with h | h
    · rw [h]; unfold pickFirst; split
      · exact Or.inr (List.mem_cons_self x l)
      · exact Or.inl rfl
    · exact Or.inr (List.mem_cons_of_mem x h)

/-- A pickFirst fold that ends no higher than its seed never moved off the
seed: the fold replaces the current best only on a strict improvement. -/
theorem foldl_pickFirst_eq_of_le {α : Type} (f : α → Int) :
    ∀ (l : List α) (b : α), f (l.foldl (pickFirst f) b) ≤ f b → l.foldl (pickFirst f) b = b
  | [], _, _ => rfl
  | x :: l, b, h => by
    rw [List.foldl_cons] at h ⊢
    by_cases hc : f b < f x
    · rw [pickFirst_pos f hc] at h ⊢
      exact absurd (lt_of_lt_of_le hc (le_foldl_pickFirst f l x)) (not_lt.mpr h)
    · rw [pickFirst_neg f hc] at h ⊢
      exact foldl_pickFirst_eq_of_le f l b h

/-- Tie-breaking of a pickFirst fold: along a list that is strictly
increasing for an order lt (seed included), any scanned element that ties
with the final score comes at or after the fold result in that order. -/
theorem foldl_pickFirst_first {α : Type} (f : α → Int) (lt : α → α → Prop) :
    ∀ (l : List α) (b : α), (b :: l).Pairwise lt →
      ∀ x, (x = b ∨ x ∈ l) → f x = f (l.foldl (pickFirst f) b) →
        l.foldl (pickFirst f) b = x ∨ lt (l.foldl (pickFirst f) b) x
  | [], b, _, x, hx, _ => by
    rcases hx with h | h
    · exact Or.inl h.symm
    · exact absurd h (List.not_mem_nil x)
  | y :: l, b, hp, x, hx, hfx => by
    rw [List.foldl_cons] at hfx ⊢
    by_cases hc : f b < f y
    · rw [pickFirst_pos f hc] at hfx ⊢
      have hp' : (y :: l).Pairwise lt := hp.of_cons
      rcases hx with h | h
      · subst h
        have hlt : f x < f (l.foldl (pickFirst f) y) :=
          lt_of_lt_of_le hc (le_foldl_pickFirst f l y)
        exact absurd hfx (ne_of_lt hlt)
      · rcases List.mem_cons.mp h with h1 | h1
        · exact foldl_pickFirst_first f lt l y hp' x (Or.inl h1) hfx
        · exact foldl_pickFirst_first f lt l y hp' x (Or.inr h1) hfx
    · rw [pickFirst_neg f hc] at hfx ⊢
      have hsub : (b :: l).Sublist (b :: y :: l) :=
        List.Sublist.cons₂ b (List.sublist_cons_of_sublist y (List.Sublist.refl l))
      have hp' : (b :: l).Pairwise lt := hp.sublist hsub
      rcases hx with h | h
      · exact foldl_pickFirst_first f lt l b hp' x (Or.inl h) hfx
      · rcases List.mem_cons.mp h with h1 | h1
        · subst h1
          have hyb : f x ≤ f b := le_of_not_lt hc
          have hrb : l.foldl (pickFirst f) b = b :=
            foldl_pickFirst_eq_of_le f l b (by rw [← hfx]; exact hyb)
          rw [hrb]
          exact Or.inr ((List.pairwise_cons.mp hp).1 x (List.mem_cons_self x l))
        · exact foldl_pickFirst_first f lt l b hp' x (Or.inr h1) hfx

/-- Strict lexicographic order on index pairs: the scan order of the two
loops of max_subarray_exh. -/
def lexLt (p q : Nat × Nat) : Prop :=
  p.1 < q.1 ∨ (p.1 = q.1 ∧ p.2 < q.2)

/-- Every scanned pair is a valid non-empty range inside the vector. -/
theorem exhPairs_sound {n : Nat} {p : Nat × Nat} (h : p ∈ exhPairs n) :
    p.1 < p.2 ∧ p.2 ≤ n := by
  unfold exhPairs at h
  rw [List.mem_flatten] at h
  obtain ⟨l, hl, hp⟩ := h
  rw [List.mem_map] at hl
  obtain ⟨i, hi, rfl⟩ := hl
  rw [List.mem_map] at hp
  obtain ⟨j, hj, rfl⟩ := hp
  rw [List.Ico.mem] at hj
  exact ⟨by omega, by omega⟩

/-- Every valid non-empty range inside the vector is scanned. -/
theorem exhPairs_complete {n i j : Nat} (h1 : i < j) (h2 : j ≤ n) :
    (i, j) ∈ exhPairs n := by
  unfold exhPairs
  rw [List.mem_flatten]
  refine ⟨(List.Ico (i + 1) (n + 1)).map (fun j => (i, j)), ?_, ?_⟩
  · exact List.mem_map_of_mem _ (List.mem_range.mpr (by omega))
  · exact List.mem_map_of_mem _ (List.Ico.mem.mpr ⟨by omega, by omega⟩)

/-- The scan visits pairs in strictly increasing lexicographic order. -/
theorem exhPairs_pairwise (n : Nat) : (exhPairs n).Pairwise lexLt := by
  unfold exhPairs
  rw [List.pairwise_flatten]
  refine ⟨?_, ?_⟩
  · intro l hl
    rw [List.mem_map] at hl
    obtain ⟨i, _, rfl⟩ := hl
    exact List.Pairwise.map _ (fun a b hab => Or.inr ⟨rfl, hab⟩) (List.Ico.pairwise_lt _ _)
  · refine List.Pairwise.map _ ?_ (List.pairwise_lt_range n)
    intro i1 i2 h12 x hx y hy
    rw [List.mem_map] at hx hy
    obtain ⟨j1, _, rfl⟩ := hx
    obtain ⟨j2, _, rfl⟩ := hy
    exact Or.inl h12

/-- On a non-empty vector, the first scanned pair is the default best
(0, 1). -/
theorem exhPairs_head (m : Nat) : ∃ t, exhPairs (m + 1) = (0, 1) :: t := by
  unfold exhPairs
  rw [List.range_succ_eq_map, List.map_cons, List.flatten_cons]
  rw [show List.Ico 1 (m + 1 + 1) = 1 :: List.Ico 2 (m + 1 + 1) from List.Ico.eq_cons (by omega)]
  rw [List.map_cons, List.cons_append]
  exact ⟨_, rfl⟩

/-- Behavior of the scan of max_subarray_exh: the final pair is a valid
range whose sum dominates every scanned range, and it is the
lexicographically first pair attaining that sum. -/
theorem exh_fold_spec (v : List Int) (hv : v ≠ []) :
    let f : Nat × Nat → Int := fun q => sumRange v q.1 q.2
    let r := (exhPairs v.length).foldl (pickFirst f) (0, 1)
    (r.1 < r.2 ∧ r.2 ≤ v.length) ∧
    (∀ i j, i < j → j ≤ v.length → sumRange v i j ≤ f r) ∧
    (∀ i j, i < j → j ≤ v.length → sumRange v i j = f r →
      r.1 < i ∨ (r.1 = i ∧ r.2 ≤ j)) ∧
    ((∀ k, k < v.length → v.getD k 0 < 0) → r.2 = r.1 + 1) := by
  intro f r
  have hn : 0 < v.length := List.length_pos.mpr hv
  obtain ⟨m, hm⟩ : ∃ m, v.length = m + 1 := ⟨v.length - 1, by omega⟩
  obtain ⟨t, ht⟩ := exhPairs_head m
  have hpairs : exhPairs v.length = (0, 1) :: t := by rw [hm, ht]
  have hrt : r = t.foldl (pickFirst f) (0, 1) := by
    show (exhPairs v.length).foldl (pickFirst f) (0, 1) = _
    rw [hpairs, List.foldl_cons, pickFirst_neg f (lt_irrefl _)]
  have hmem : r = (0, 1) ∨ r ∈ t := by rw [hrt]; exact foldl_pickFirst_mem f t (0, 1)
  have hmem' : r ∈ exhPairs v.length := by
    rw [hpairs]
    rcases hmem with h | h
    · rw [h]; exact List.mem_cons_self _ _
    · exact List.mem_cons_of_mem _ h
  have hbounds : r.1 < r.2 ∧ r.2 ≤ v.length := exhPairs_sound hmem'
  have hmax : ∀ i j, i < j → j ≤ v.length → sumRange v i j ≤ f r := by
    intro i j hij hjn
    have hij_mem : (i, j) ∈ exhPairs v.length := exhPairs_complete hij hjn
    rw [hpairs] at hij_mem
    rw [hrt]
    rcases List.mem_cons.mp hij_mem with h | h
    · have h1 := le_foldl_pickFirst f t (0, 1)
      have h2 : sumRange v i j = f ((0, 1) : Nat × Nat) := by rw [← h]
      rw [h2]; exact h1
    · exact foldl_pickFirst_le f t (0, 1) (i, j) h
  refine ⟨hbounds, hmax, ?_, ?_⟩
  · intro i j hij hjn hsum
    have hij_mem : (i, j) ∈ exhPairs v.length := exhPairs_complete hij hjn
    rw [hpairs] at hij_mem
    have hpw : ((0, 1) :: t).Pairwise lexLt := by
      rw [← hpairs]; exact exhPairs_pairwise _
    have hx : ((i, j) : Nat × Nat) = (0, 1) ∨ ((i, j) : Nat × Nat) ∈ t := by
      rcases List.mem_cons.mp hij_mem with h | h
      · exact Or.inl h
      · exact Or.inr h
    have hfx : f (i, j) = f (t.foldl (pickFirst f) (0, 1)) := by rw [← hrt]; exact hsum
    have h5 := foldl_pickFirst_first f lexLt t (0, 1) hpw (i, j) hx hfx
    rw [← hrt] at h5
    rcases h5 with h | h
    · rw [h]; exact Or.inr ⟨rfl, le_refl _⟩
    · simp only [lexLt] at h
      rcases h with h | ⟨h1, h2⟩
      · exact Or.inl h
      · exact Or.inr ⟨h1, le_of_lt h2⟩
  · intro hall
    by_contra hne
    have h1 : r.1 + 1 < r.2 := by omega
    have hfr : f r = sumRange v r.1 r.2 := rfl
    have hsplit : sumRange v r.1 r.2 = sumRange v r.1 (r.1 + 1) + sumRange v (r.1 + 1) r.2 :=
      sumRange_append v (by omega) (by omega)
    have hneg2 : sumRange v (r.1 + 1) r.2 < 0 := sumRange_neg v _ _ h1 hbounds.2 hall
    have hle : sumRange v r.1 (r.1 + 1) ≤ f r := hmax r.1 (r.1 + 1) (by omega) (by omega)
    rw [hfr] at hle
    omega

/-- C2: on every non-empty vector, max_subarray_exh returns the span over
the contiguous non-empty range with greatest sum among all non-empty
contiguous ranges; on sum ties the earliest pair in the i-ascending then
j-ascending scan order (seeded with the default best (0, 1)) is kept, the
result is never empty, and an all-negative input yields a single-element
range. -/
theorem max_subarray_exh_correct (v : List Int) (hv : v ≠ []) :
    ((max_subarray_exh v).begin_ < (max_subarray_exh v).end_ ∧
      (max_subarray_exh v).end_ ≤ v.length) ∧
    (max_subarray_exh v).sum =
      sumRange v (max_subarray_exh v).begin_ (max_subarray_exh v).end_ ∧
    (∀ i j, i < j → j ≤ v.length → sumRange v i j ≤ (max_subarray_exh v).sum) ∧
    (∀ i j, i < j → j ≤ v.length → sumRange v i j = (max_subarray_exh v).sum →
      (max_subarray_exh v).begin_ < i ∨
        ((max_subarray_exh v).begin_ = i ∧ (max_subarray_exh v).end_ ≤ j)) ∧
    ((∀ k, k < v.length → v.getD k 0 < 0) →
      (max_subarray_exh v).end_ = (max_subarray_exh v).begin_ + 1) := by
  obtain ⟨hbounds, hmax, hfirst, hneg⟩ := exh_fold_spec v hv
  exact ⟨hbounds, rfl, hmax, hfirst, hneg⟩

/-- Witness for max_subarray_exh_correct at the input [1, -2]. -/
theorem max_subarray_exh_correct_witness :
    ((max_subarray_exh [1, -2]).begin_ < (max_subarray_exh [1, -2]).end_ ∧
      (max_subarray_exh [1, -2]).end_ ≤ ([1, -2] : List Int).length) ∧
    (max_subarray_exh [1, -2]).sum =
      sumRange [1, -2] (max_subarray_exh [1, -2]).begin_ (max_subarray_exh [1, -2]).end_ ∧
    (∀ i j, i < j → j ≤ ([1, -2] : List Int).length →
      sumRange [1, -2] i j ≤ (max_subarray_exh [1, -2]).sum) ∧
    (∀ i j, i < j → j ≤ ([1, -2] : List Int).length →
      sumRange [1, -2] i j = (max_subarray_exh [1, -2]).sum →
      (max_subarray_exh [1, -2]).begin_ < i ∨
        ((max_subarray_exh [1, -2]).begin_ = i ∧ (max_subarray_exh [1, -2]).end_ ≤ j)) ∧
    ((∀ k, k < ([1, -2] : List Int).length → ([1, -2] : List Int).getD k 0 < 0) →
      (max_subarray_exh [1, -2]).end_ = (max_subarray_exh [1, -2]).begin_ + 1) :=
  max_subarray_exh_correct [1, -2] (by decide)

/-- C1 (refuted): on the input [1, 0] the exhaustive algorithm returns the
span over [0, 1) with sum 1, the true maximum, while the
divide-and-conquer algorithm returns the span over [1, 2) with sum 0: in
its top combine step the left and crossing sums tie at 1, so neither the
crossing branch nor the left branch is taken and the right half (sum 0) is
returned. The two results have different sums, refuting the claim. -/
theorem dbh_exh_sums_differ :
    (max_subarray_exh [1, 0]).sum = 1 ∧ (max_subarray_dbh [1, 0]).sum = 0 ∧
    (max_subarray_dbh [1, 0]).begin_ = 1 ∧ (max_subarray_dbh [1, 0]).end_ = 2 := by
  refine ⟨by decide, ?_⟩
  have h : max_subarray_dbh [1, 0] = spanOf [1, 0] 1 2 := by
    simp [max_subarray_dbh, maximum_subarray_recurse, split_mid, crossing_max_subarray,
      spanOf, leftloop, rightloop, sumRange]
    decide
  rw [h]
  exact ⟨by decide, rfl, rfl⟩

/-- C3: the combine step of the divide-and-conquer recursion. On a range
with low < high, the crossing result is returned when its sum strictly
beats both the left and the right sums; failing that, the left result is
returned when its sum strictly beats both the right and the crossing sums;
in every remaining case, sum ties with the right result included, the
right result is returned. -/
theorem maximum_subarray_recurse_combine (v : List Int) (low high : Nat) (h : low < high) :
    ((maximum_subarray_recurse v low (split_mid low high)).sum <
        (crossing_max_subarray v low (split_mid low high) high).sum ∧
      (maximum_subarray_recurse v (split_mid low high + 1) high).sum <
        (crossing_max_subarray v low (split_mid low high) high).sum →
      maximum_subarray_recurse v low high =
        crossing_max_subarray v low (split_mid low high) high) ∧
    (¬ ((maximum_subarray_recurse v low (split_mid low high)).sum <
          (crossing_max_subarray v low (split_mid low high) high).sum ∧
        (maximum_subarray_recurse v (split_mid low high + 1) high).sum <
          (crossing_max_subarray v low (split_mid low high) high).sum) ∧
      ((maximum_subarray_recurse v (split_mid low high + 1) high).sum <
          (maximum_subarray_recurse v low (split_mid low high)).sum ∧
        (crossing_max_subarray v low (split_mid low high) high).sum <
          (maximum_subarray_recurse v low (split_mid low high)).sum) →
      maximum_subarray_recurse v low high =
        maximum_subarray_recurse v low (split_mid low high)) ∧
    (¬ ((maximum_subarray_recurse v low (split_mid low high)).sum <
          (crossing_max_subarray v low (split_mid low high) high).sum ∧
        (maximum_subarray_recurse v (split_mid low high + 1) high).sum <
          (crossing_max_subarray v low (split_mid low high) high).sum) ∧
      ¬ ((maximum_subarray_recurse v (split_mid low high + 1) high).sum <
          (maximum_subarray_recurse v low (split_mid low high)).sum ∧
        (crossing_max_subarray v low (split_mid low high) high).sum <
          (maximum_subarray_recurse v low (split_mid low high)).sum) →
      maximum_subarray_recurse v low high =
        maximum_subarray_recurse v (split_mid low high + 1) high) := by
  have hunf : maximum_subarray_recurse v low high =
      (if (maximum_subarray_recurse v low (split_mid low high)).sum <
            (crossing_max_subarray v low (split_mid low high) high).sum ∧
          (maximum_subarray_recurse v (split_mid low high + 1) high).sum <
            (crossing_max_subarray v low (split_mid low high) high).sum
       then crossing_max_subarray v low (split_mid low high) high
       else if (maximum_subarray_recurse v (split_mid low high + 1) high).sum <
               (maximum_subarray_recurse v low (split_mid low high)).sum ∧
             (crossing_max_subarray v low (split_mid low high) high).sum <
               (maximum_subarray_recurse v low (split_mid low high)).sum
       then maximum_subarray_recurse v low (split_mid low high)
       else maximum_subarray_recurse v (split_mid low high + 1) high) := by
    rw [maximum_subarray_recurse]
    rw [dif_pos h]
  refine ⟨?_, ?_, ?_⟩
  · intro hc
    rw [hunf, if_pos hc]
  · intro hc
    rw [hunf, if_neg hc.1, if_pos hc.2]
  · intro hc
    rw [hunf, if_neg hc.1, if_neg hc.2]

/-- Witness for maximum_subarray_recurse_combine on the vector [1, 2] with
low = 0 and high = 1. -/
theorem maximum_subarray_recurse_combine_witness :
    ((maximum_subarray_recurse [1, 2] 0 (split_mid 0 1)).sum <
        (crossing_max_subarray [1, 2] 0 (split_mid 0 1) 1).sum ∧
      (maximum_subarray_recurse [1, 2] (split_mid 0 1 + 1) 1).sum <
        (crossing_max_subarray [1, 2] 0 (split_mid 0 1) 1).sum →
      maximum_subarray_recurse [1, 2] 0 1 =
        crossing_max_subarray [1, 2] 0 (split_mid 0 1) 1) ∧
    (¬ ((maximum_subarray_recurse [1, 2] 0 (split_mid 0 1)).sum <
          (crossing_max_subarray [1, 2] 0 (split_mid 0 1) 1).sum ∧
        (maximum_subarray_recurse [1, 2] (split_mid 0 1 + 1) 1).sum <
          (crossing_max_subarray [1, 2] 0 (split_mid 0 1) 1).sum) ∧
      ((maximum_subarray_recurse [1, 2] (split_mid 0 1 + 1) 1).sum <
          (maximum_subarray_recurse [1, 2] 0 (split_mid 0 1)).sum ∧
        (crossing_max_subarray [1, 2] 0 (split_mid 0 1) 1).sum <
          (maximum_subarray_recurse [1, 2] 0 (split_mid 0 1)).sum) →
      maximum_subarray_recurse [1, 2] 0 1 =
        maximum_subarray_recurse [1, 2] 0 (split_mid 0 1)) ∧
    (¬ ((maximum_subarray_recurse [1, 2] 0 (split_mid 0 1)).sum <
          (crossing_max_subarray [1, 2] 0 (split_mid 0 1) 1).sum ∧
        (maximum_subarray_recurse [1, 2] (split_mid 0 1 + 1) 1).sum <
          (crossing_max_subarray [1, 2] 0 (split_mid 0 1) 1).sum) ∧
      ¬ ((maximum_subarray_recurse [1, 2] (split_mid 0 1 + 1) 1).sum <
          (maximum_subarray_recurse [1, 2] 0 (split_mid 0 1)).sum ∧
        (crossing_max_subarray [1, 2] 0 (split_mid 0 1) 1).sum <
          (maximum_subarray_recurse [1, 2] 0 (split_mid 0 1)).sum) →
      maximum_subarray_recurse [1, 2] 0 1 =
        maximum_subarray_recurse [1, 2] (split_mid 0 1 + 1) 1) :=
  maximum_subarray_recurse_combine [1, 2] 0 1 (by decide)

/-- C10: on a range with low < high the split point avg = (low+high)/2
satisfies low ≤ avg < high, so the two recursive subranges [low, avg] and
[avg+1, high] are both strictly shorter than [low, high]; the measure
high - low decreases on both recursive calls, which is exactly the measure
justifying termination of maximum_subarray_recurse above. -/
theorem split_mid_bounds (low high : Nat) (h : low < high) :
    low ≤ split_mid low high ∧ split_mid low high < high ∧
    split_mid low high - low < high - low ∧
    high - (split_mid low high + 1) < high - low := by
  unfold split_mid
  omega

/-- Witness for split_mid_bounds at low = 0, high = 3. -/
theorem split_mid_bounds_witness :
    0 ≤ split_mid 0 3 ∧ split_mid 0 3 < 3 ∧
    split_mid 0 3 - 0 < 3 - 0 ∧ 3 - (split_mid 0 3 + 1) < 3 - 0 :=
  split_mid_bounds 0 3 (by decide)

/-- C9: span equality compares exactly the two iterator positions; the
stored sums are not compared, so two spans over the same positions with
different stored sums compare equal. -/
theorem spanBeq_iff_positions :
    (∀ s t : summed_span, spanBeq s t = true ↔ (s.begin_ = t.begin_ ∧ s.end_ = t.end_)) ∧
    spanBeq ⟨0, 1, 5⟩ ⟨0, 1, 7⟩ = true ∧
    (⟨0, 1, 5⟩ : summed_span).sum ≠ (⟨0, 1, 7⟩ : summed_span).sum := by
  refine ⟨?_, by decide, by decide⟩
  intro s t
  simp [spanBeq]

/-- C8 (refuted): during max_subarray_dbh on [-1, 5, -100000000,
-100000000] the top-level split is avg = split_mid 0 3 = 1 and the
crossing call crossing_max_subarray(input, 0, 1, 3) is made; in its right
scan both running totals are below the sentinel -99999999, so e keeps its
initial value 0 and the constructed span has begin = 1 and end = 0 + 1 =
1, violating the begin < end invariant asserted by the summed_span
constructor. -/
theorem crossing_violates_span_invariant :
    split_mid 0 3 = 1 ∧
    (crossing_max_subarray [-1, 5, -100000000, -100000000] 0 1 3).begin_ = 1 ∧
    (crossing_max_subarray [-1, 5, -100000000, -100000000] 0 1 3).end_ = 1 ∧
    ¬ ((crossing_max_subarray [-1, 5, -100000000, -100000000] 0 1 3).begin_ <
        (crossing_max_subarray [-1, 5, -100000000, -100000000] 0 1 3).end_) := by
  decide

/-- C6 (refuted as stated): at the valid split low = 0, mid = 0, high = 1
of the vector [0, -100000000], the only rightward running total
-100000000 never beats the sentinel -99999999, so e keeps its initial
value 0 and the returned span is [0, 1): it does not include index
mid + 1 = 1, and its sum 0 is not bestLeft + bestRight = -100000000. -/
theorem crossing_counterexample :
    ¬ (((crossing_max_subarray [0, -100000000] 0 0 1).begin_ ≤ 1 ∧
        1 < (crossing_max_subarray [0, -100000000] 0 0 1).end_) ∧
       (crossing_max_subarray [0, -100000000] 0 0 1).sum =
         bestLeft [0, -100000000] 0 0 + bestRight [0, -100000000] 0 1) := by
  decide

/-- Invariant of the left scan: the final best running total dominates the
incoming best and every completed running total, i.e. every sum of a range
from some k up to the scan top low+cnt (offset by the incoming trueSum). -/
theorem leftloop_ge (v : List Int) (low : Nat) :
    ∀ (cnt : Nat) (trueSum sumL : Int) (b : Nat),
      sumL ≤ (leftloop v low cnt trueSum sumL b).1 ∧
      ∀ k, low ≤ k → k < low + cnt →
        trueSum + sumRange v k (low + cnt) ≤ (leftloop v low cnt trueSum sumL b).1
  | 0, trueSum, sumL, b => ⟨le_refl _, fun k h1 h2 => by omega⟩
  | cnt + 1, trueSum, sumL, b => by
    by_cases hc : sumL < trueSum + v.getD (low + cnt) 0
    · have hred : leftloop v low (cnt + 1) trueSum sumL b =
          leftloop v low cnt (trueSum + v.getD (low + cnt) 0)
            (trueSum + v.getD (low + cnt) 0) (low + cnt) := by
        simp only [leftloop]
        rw [if_pos hc]
      rw [hred]
      obtain ⟨ih1, ih2⟩ := leftloop_ge v low cnt (trueSum + v.getD (low + cnt) 0)
        (trueSum + v.getD (low + cnt) 0) (low + cnt)
      refine ⟨le_trans (le_of_lt hc) ih1, ?_⟩
      intro k hk1 hk2
      have hbridge : sumRange v k (low + (cnt + 1)) = sumRange v k (low + cnt + 1) := rfl
      rcases Nat.lt_or_ge k (low + cnt) with hk | hk
      · have h3 := ih2 k hk1 hk
        have hsplit : sumRange v k (low + cnt + 1) =
            sumRange v k (low + cnt) + sumRange v (low + cnt) (low + cnt + 1) :=
          sumRange_append v (by omega) (by omega)
        have hs := sumRange_single v (low + cnt)
        omega
      · have hkeq : k = low + cnt := by omega
        subst hkeq
        have hs := sumRange_single v (low + cnt)
        omega
    · have hred : leftloop v low (cnt + 1) trueSum sumL b =
          leftloop v low cnt (trueSum + v.getD (low + cnt) 0) sumL b := by
        simp only [leftloop]
        rw [if_neg hc]
      rw [hred]
      obtain ⟨ih1, ih2⟩ := leftloop_ge v low cnt (trueSum + v.getD (low + cnt) 0) sumL b
      refine ⟨ih1, ?_⟩
      intro k hk1 hk2
      have hbridge : sumRange v k (low + (cnt + 1)) = sumRange v k (low + cnt + 1) := rfl
      rcases Nat.lt_or_ge k (low + cnt) with hk | hk
      · have h3 := ih2 k hk1 hk
        have hsplit : sumRange v k (low + cnt + 1) =
            sumRange v k (low + cnt) + sumRange v (low + cnt) (low + cnt + 1) :=
          sumRange_append v (by omega) (by omega)
        have hs := sumRange_single v (low + cnt)
        omega
      · have hkeq : k = low + cnt := by omega
        subst hkeq
        have hs := sumRange_single v (low + cnt)
        omega

/-- Attainment for the left scan: either no update ever happened and the
initial pair comes back unchanged, or the final pair records an index in
the scanned window whose running total is the final best, and that best
strictly improved on the incoming one. -/
theorem leftloop_attain (v : List Int) (low : Nat) :
    ∀ (cnt : Nat) (trueSum sumL : Int) (b : Nat),
      leftloop v low cnt trueSum sumL b = (sumL, b) ∨
      (low ≤ (leftloop v low cnt trueSum sumL b).2 ∧
       (leftloop v low cnt trueSum sumL b).2 < low + cnt ∧
       (leftloop v low cnt trueSum sumL b).1 =
         trueSum + sumRange v (leftloop v low cnt trueSum sumL b).2 (low + cnt) ∧
       sumL < (leftloop v low cnt trueSum sumL b).1)
  | 0, trueSum, sumL, b => Or.inl rfl
  | cnt + 1, trueSum, sumL, b => by
    by_cases hc : sumL < trueSum + v.getD (low + cnt) 0
    · have hred : leftloop v low (cnt + 1) trueSum sumL b =
          leftloop v low cnt (trueSum + v.getD (low + cnt) 0)
            (trueSum + v.getD (low + cnt) 0) (low + cnt) := by
        simp only [leftloop]
        rw [if_pos hc]
      rw [hred]
      rcases leftloop_attain v low cnt (trueSum + v.getD (low + cnt) 0)
        (trueSum + v.getD (low + cnt) 0) (low + cnt) with h | ⟨h1, h2, h3, h4⟩
      · have h1' : (leftloop v low cnt (trueSum + v.getD (low + cnt) 0)
            (trueSum + v.getD (low + cnt) 0) (low + cnt)).1 =
            trueSum + v.getD (low + cnt) 0 := by rw [h]
        have h2' : (leftloop v low cnt (trueSum + v.getD (low + cnt) 0)
            (trueSum + v.getD (low + cnt) 0) (low + cnt)).2 = low + cnt := by rw [h]
        rw [h2']
        have hs := sumRange_single v (low + cnt)
        have hbridge : sumRange v (low + cnt) (low + (cnt + 1)) =
            sumRange v (low + cnt) (low + cnt + 1) := rfl
        exact Or.inr ⟨by omega, by omega, by omega, by omega⟩
      · have hsplit : sumRange v (leftloop v low cnt (trueSum + v.getD (low + cnt) 0)
              (trueSum + v.getD (low + cnt) 0) (low + cnt)).2 (low + cnt + 1) =
            sumRange v (leftloop v low cnt (trueSum + v.getD (low + cnt) 0)
              (trueSum + v.getD (low + cnt) 0) (low + cnt)).2 (low + cnt) +
            sumRange v (low + cnt) (low + cnt + 1) :=
          sumRange_append v (by omega) (by omega)
        have hs := sumRange_single v (low + cnt)
        have hbridge : sumRange v (leftloop v low cnt (trueSum + v.getD (low + cnt) 0)
              (trueSum + v.getD (low + cnt) 0) (low + cnt)).2 (low + (cnt + 1)) =
            sumRange v (leftloop v low cnt (trueSum + v.getD (low + cnt) 0)
              (trueSum + v.getD (low + cnt) 0) (low + cnt)).2 (low + cnt + 1) := rfl
        exact Or.inr ⟨by omega, by omega, by omega, by omega⟩
    · have hred : leftloop v low (cnt + 1) trueSum sumL b =
          leftloop v low cnt (trueSum + v.getD (low + cnt) 0) sumL b := by
        simp only [leftloop]
        rw [if_neg hc]
      rw [hred]
      rcases leftloop_attain v low cnt (trueSum + v.getD (low + cnt) 0) sumL b with
        h | ⟨h1, h2, h3, h4⟩
      · exact Or.inl h
      · have hsplit : sumRange v (leftloop v low cnt (trueSum + v.getD (low + cnt) 0)
              sumL b).2 (low + cnt + 1) =
            sumRange v (leftloop v low cnt (trueSum + v.getD (low + cnt) 0)
              sumL b).2 (low + cnt) +
            sumRange v (low + cnt) (low + cnt + 1) :=
          sumRange_append v (by omega) (by omega)
        have hs := sumRange_single v (low + cnt)
        have hbridge : sumRange v (leftloop v low cnt (trueSum + v.getD (low + cnt) 0)
              sumL b).2 (low + (cnt + 1)) =
            sumRange v (leftloop v low cnt (trueSum + v.getD (low + cnt) 0)
              sumL b).2 (low + cnt + 1) := rfl
        exact Or.inr ⟨by omega, by omega, by omega, by omega⟩

/-- Invariant of the right scan: the final best running total dominates the
incoming best and every completed running total, i.e. every sum of the
range from the scan base j up to some k inclusive (offset by the incoming
trueSum). -/
theorem rightloop_ge (v : List Int) :
    ∀ (cnt j : Nat) (trueSum sumR : Int) (e : Nat),
      sumR ≤ (rightloop v j cnt trueSum sumR e).1 ∧
      ∀ k, j ≤ k → k < j + cnt →
        trueSum + sumRange v j (k + 1) ≤ (rightloop v j cnt trueSum sumR e).1
  | 0, j, trueSum, sumR, e => ⟨le_refl _, fun k h1 h2 => by omega⟩
  | cnt + 1, j, trueSum, sumR, e => by
    by_cases hc : sumR < trueSum + v.getD j 0
    · have hred : rightloop v j (cnt + 1) trueSum sumR e =
          rightloop v (j + 1) cnt (trueSum + v.getD j 0) (trueSum + v.getD j 0) j := by
        simp only [rightloop]
        rw [if_pos hc]
      rw [hred]
      obtain ⟨ih1, ih2⟩ := rightloop_ge v cnt (j + 1) (trueSum + v.getD j 0)
        (trueSum + v.getD j 0) j
      refine ⟨le_trans (le_of_lt hc) ih1, ?_⟩
      intro k hk1 hk2
      have hs := sumRange_single v j
      rcases Nat.lt_or_ge j k with hk | hk
      · have h3 := ih2 k (by omega) (by omega)
        have hsplit : sumRange v j (k + 1) =
            sumRange v j (j + 1) + sumRange v (j + 1) (k + 1) :=
          sumRange_append v (by omega) (by omega)
        omega
      · have hkeq : k = j := by omega
        subst hkeq
        omega
    · have hred : rightloop v j (cnt + 1) trueSum sumR e =
          rightloop v (j + 1) cnt (trueSum + v.getD j 0) sumR e := by
        simp only [rightloop]
        rw [if_neg hc]
      rw [hred]
      obtain ⟨ih1, ih2⟩ := rightloop_ge v cnt (j + 1) (trueSum + v.getD j 0) sumR e
      refine ⟨ih1, ?_⟩
      intro k hk1 hk2
      have hs := sumRange_single v j
      rcases Nat.lt_or_ge j k with hk | hk
      · have h3 := ih2 k (by omega) (by omega)
        have hsplit : sumRange v j (k + 1) =
            sumRange v j (j + 1) + sumRange v (j + 1) (k + 1) :=
          sumRange_append v (by omega) (by omega)
        omega
      · have hkeq : k = j := by omega
        subst hkeq
        omega

/-- Attainment for the right scan: either no update ever happened and the
initial pair comes back unchanged, or the final pair records an index in
the scanned window whose running total is the final best, and that best
strictly improved on the incoming one. -/
theorem rightloop_attain (v : List Int) :
    ∀ (cnt j : Nat) (trueSum sumR : Int) (e : Nat),
      rightloop v j cnt trueSum sumR e = (sumR, e) ∨
      (j ≤ (rightloop v j cnt trueSum sumR e).2 ∧
       (rightloop v j cnt trueSum sumR e).2 < j + cnt ∧
       (rightloop v j cnt trueSum sumR e).1 =
         trueSum + sumRange v j ((rightloop v j cnt trueSum sumR e).2 + 1) ∧
       sumR < (rightloop v j cnt trueSum sumR e).1)
  | 0, j, trueSum, sumR, e => Or.inl rfl
  | cnt + 1, j, trueSum, sumR, e => by
    have hs := sumRange_single v j
    by_cases hc : sumR < trueSum + v.getD j 0
    · have hred : rightloop v j (cnt + 1) trueSum sumR e =
          rightloop v (j + 1) cnt (trueSum + v.getD j 0) (trueSum + v.getD j 0) j := by
        simp only [rightloop]
        rw [if_pos hc]
      rw [hred]
      rcases rightloop_attain v cnt (j + 1) (trueSum + v.getD j 0)
        (trueSum + v.getD j 0) j with h | ⟨h1, h2, h3, h4⟩
      · have h1' : (rightloop v (j + 1) cnt (trueSum + v.getD j 0)
            (trueSum + v.getD j 0) j).1 = trueSum + v.getD j 0 := by rw [h]
        have h2' : (rightloop v (j + 1) cnt (trueSum + v.getD j 0)
            (trueSum + v.getD j 0) j).2 = j := by rw [h]
        rw [h2']
        exact Or.inr ⟨by omega, by omega, by omega, by omega⟩
      · have hsplit : sumRange v j ((rightloop v (j + 1) cnt (trueSum + v.getD j 0)
              (trueSum + v.getD j 0) j).2 + 1) =
            sumRange v j (j + 1) + sumRange v (j + 1)
              ((rightloop v (j + 1) cnt (trueSum + v.getD j 0)
                (trueSum + v.getD j 0) j).2 + 1) :=
          sumRange_append v (by omega) (by omega)
        exact Or.inr ⟨by omega, by omega, by omega, by omega⟩
    · have hred : rightloop v j (cnt + 1) trueSum sumR e =
          rightloop v (j + 1) cnt (trueSum + v.getD j 0) sumR e := by
        simp only [rightloop]
        rw [if_neg hc]
      rw [hred]
      rcases rightloop_attain v cnt (j + 1) (trueSum + v.getD j 0) sumR e with
        h | ⟨h1, h2, h3, h4⟩
      · exact Or.inl h
      · have hsplit : sumRange v j ((rightloop v (j + 1) cnt (trueSum + v.getD j 0)
              sumR e).2 + 1) =
            sumRange v j (j + 1) + sumRange v (j + 1)
              ((rightloop v (j + 1) cnt (trueSum + v.getD j 0) sumR e).2 + 1) :=
          sumRange_append v (by omega) (by omega)
        exact Or.inr ⟨by omega, by omega, by omega, by omega⟩

/-- A max fold dominates its seed. -/
theorem foldl_max_le_self : ∀ (l : List Int) (a : Int), a ≤ l.foldl max a
  | [], _ => le_refl _
  | x :: l, a => by
    rw [List.foldl_cons]
    exact le_trans (le_max_left a x) (foldl_max_le_self l (max a x))

/-- A max fold dominates every listed value. -/
theorem foldl_max_le : ∀ (l : List Int) (a x : Int), x ∈ l → x ≤ l.foldl max a
  | y :: l, a, x, hx => by
    rw [List.foldl_cons]
    rcases List.mem_cons.mp hx with h | h
    · subst h
      exact le_trans (le_max_right a x) (foldl_max_le_self l (max a x))
    · exact foldl_max_le l (max a y) x h

/-- A max fold returns its seed or a listed value. -/
theorem foldl_max_mem : ∀ (l : List Int) (a : Int), l.foldl max a = a ∨ l.foldl max a ∈ l
  | [], _ => Or.inl rfl
  | x :: l, a => by
    rw [List.foldl_cons]
    rcases foldl_max_mem l (max a x) with h | h
    · rcases le_total a x with hax | hax
      · rw [h, max_eq_right hax]
        exact Or.inr (List.mem_cons_self x l)
      · rw [h, max_eq_left hax]
        exact Or.inl rfl
    · exact Or.inr (List.mem_cons_of_mem x h)

/-- bestLeft dominates the sum of every range ending just past mid. -/
theorem bestLeft_ge (v : List Int) (low mid k : Nat) (h1 : low ≤ k) (h2 : k ≤ mid) :
    sumRange v k (mid + 1) ≤ bestLeft v low mid := by
  unfold bestLeft
  exact foldl_max_le _ _ _ (List.mem_map_of_mem _ (List.Ico.mem.mpr ⟨h1, by omega⟩))

/-- bestLeft is attained by some range ending just past mid. -/
theorem bestLeft_attained (v : List Int) (low mid : Nat) (h : low ≤ mid) :
    ∃ k, low ≤ k ∧ k ≤ mid ∧ bestLeft v low mid = sumRange v k (mid + 1) := by
  unfold bestLeft
  rcases foldl_max_mem ((List.Ico low (mid + 1)).map (fun k => sumRange v k (mid + 1)))
    (sumRange v mid (mid + 1)) with hmem | hmem
  · exact ⟨mid, h, le_refl _, hmem⟩
  · rw [List.mem_map] at hmem
    obtain ⟨k, hk, hkeq⟩ := hmem
    rw [List.Ico.mem] at hk
    exact ⟨k, hk.1, by omega, hkeq.symm⟩

/-- bestRight dominates the sum of every range starting at mid+1. -/
theorem bestRight_ge (v : List Int) (mid high k : Nat) (h1 : mid + 1 ≤ k) (h2 : k ≤ high) :
    sumRange v (mid + 1) (k + 1) ≤ bestRight v mid high := by
  unfold bestRight
  exact foldl_max_le _ _ _ (List.mem_map_of_mem _ (List.Ico.mem.mpr ⟨h1, by omega⟩))

/-- bestRight is attained by some range starting at mid+1. -/
theorem bestRight_attained (v : List Int) (mid high : Nat) (h : mid < high) :
    ∃ k, mid + 1 ≤ k ∧ k ≤ high ∧ bestRight v mid high = sumRange v (mid + 1) (k + 1) := by
  unfold bestRight
  rcases foldl_max_mem ((List.Ico (mid + 1) (high + 1)).map
      (fun k => sumRange v (mid + 1) (k + 1)))
    (sumRange v (mid + 1) (mid + 2)) with hmem | hmem
  · exact ⟨mid + 1, le_refl _, by omega, hmem⟩
  · rw [List.mem_map] at hmem
    obtain ⟨k, hk, hkeq⟩ := hmem
    rw [List.Ico.mem] at hk
    exact ⟨k, hk.1, by omega, hkeq.symm⟩

/-- C6 (amended): on a valid split low ≤ mid < high < size, and provided
the best leftward running total and the best rightward running total each
exceed the sentinel -99999999 that initializes sumL and sumR, the span
returned by crossing_max_subarray includes both index mid and index mid+1,
stays inside [low, high], and its sum is bestLeft + bestRight, the maximum
sum over all ranges straddling the split. -/
theorem crossing_max_subarray_spec (v : List Int) (low mid high : Nat)
    (h1 : low ≤ mid) (h2 : mid < high) (h3 : high < v.length)
    (hL : -99999999 < bestLeft v low mid) (hR : -99999999 < bestRight v mid high) :
    (low ≤ (crossing_max_subarray v low mid high).begin_ ∧
      (crossing_max_subarray v low mid high).begin_ ≤ mid ∧
      mid + 1 < (crossing_max_subarray v low mid high).end_ ∧
      (crossing_max_subarray v low mid high).end_ ≤ high + 1) ∧
    (crossing_max_subarray v low mid high).sum =
      bestLeft v low mid + bestRight v mid high ∧
    (∀ i j, low ≤ i → i ≤ mid → mid < j → j ≤ high →
      sumRange v i (j + 1) ≤ (crossing_max_subarray v low mid high).sum) := by
  have hcntL : low + (mid + 1 - low) = mid + 1 := by omega
  have hcntR : mid + 1 + (high - mid) = high + 1 := by omega
  obtain ⟨hgeL1, hgeL2⟩ := leftloop_ge v low (mid + 1 - low) 0 (-99999999) 0
  obtain ⟨hgeR1, hgeR2⟩ := rightloop_ge v (high - mid) (mid + 1) 0 (-99999999) 0
  rw [hcntL] at hgeL2
  rw [hcntR] at hgeR2
  obtain ⟨kL, hkL1, hkL2, hkL3⟩ := bestLeft_attained v low mid h1
  obtain ⟨kR, hkR1, hkR2, hkR3⟩ := bestRight_attained v mid high h2
  have hLbig := hgeL2 kL hkL1 (by omega)
  have hRbig := hgeR2 kR hkR1 (by omega)
  rcases leftloop_attain v low (mid + 1 - low) 0 (-99999999) 0 with hA | ⟨hA1, hA2, hA3, hA4⟩
  · have hL1 : (leftloop v low (mid + 1 - low) 0 (-99999999) 0).1 = -99999999 := by rw [hA]
    omega
  · rcases rightloop_attain v (high - mid) (mid + 1) 0 (-99999999) 0 with
      hB | ⟨hB1, hB2, hB3, hB4⟩
    · have hR1 : (rightloop v (mid + 1) (high - mid) 0 (-99999999) 0).1 = -99999999 := by
        rw [hB]
      omega
    · rw [hcntL] at hA2
      rw [hcntR] at hB2
      have hLval : (leftloop v low (mid + 1 - low) 0 (-99999999) 0).1 =
          bestLeft v low mid := by
        have hub : (leftloop v low (mid + 1 - low) 0 (-99999999) 0).1 ≤
            bestLeft v low mid := by
          rw [hA3, hcntL]
          have := bestLeft_ge v low mid
            (leftloop v low (mid + 1 - low) 0 (-99999999) 0).2 hA1 (by omega)
          omega
        omega
      have hRval : (rightloop v (mid + 1) (high - mid) 0 (-99999999) 0).1 =
          bestRight v mid high := by
        have hub : (rightloop v (mid + 1) (high - mid) 0 (-99999999) 0).1 ≤
            bestRight v mid high := by
          rw [hB3]
          have := bestRight_ge v mid high
            (rightloop v (mid + 1) (high - mid) 0 (-99999999) 0).2 hB1 (by omega)
          omega
        omega
      have hspan : crossing_max_subarray v low mid high =
          spanOf v (leftloop v low (mid + 1 - low) 0 (-99999999) 0).2
            ((rightloop v (mid + 1) (high - mid) 0 (-99999999) 0).2 + 1) := rfl
      rw [hspan]
      have hBB : (spanOf v (leftloop v low (mid + 1 - low) 0 (-99999999) 0).2
          ((rightloop v (mid + 1) (high - mid) 0 (-99999999) 0).2 + 1)).begin_ =
          (leftloop v low (mid + 1 - low) 0 (-99999999) 0).2 := rfl
      have hEE : (spanOf v (leftloop v low (mid + 1 - low) 0 (-99999999) 0).2
          ((rightloop v (mid + 1) (high - mid) 0 (-99999999) 0).2 + 1)).end_ =
          (rightloop v (mid + 1) (high - mid) 0 (-99999999) 0).2 + 1 := rfl
      have hSS : (spanOf v (leftloop v low (mid + 1 - low) 0 (-99999999) 0).2
          ((rightloop v (mid + 1) (high - mid) 0 (-99999999) 0).2 + 1)).sum =
          sumRange v (leftloop v low (mid + 1 - low) 0 (-99999999) 0).2
            ((rightloop v (mid + 1) (high - mid) 0 (-99999999) 0).2 + 1) := rfl
      rw [hBB, hEE, hSS]
      have hsplit : sumRange v (leftloop v low (mid + 1 - low) 0 (-99999999) 0).2
          ((rightloop v (mid + 1) (high - mid) 0 (-99999999) 0).2 + 1) =
          sumRange v (leftloop v low (mid + 1 - low) 0 (-99999999) 0).2 (mid + 1) +
          sumRange v (mid + 1)
            ((rightloop v (mid + 1) (high - mid) 0 (-99999999) 0).2 + 1) :=
        sumRange_append v (by omega) (by omega)
      have hLsum : sumRange v (leftloop v low (mid + 1 - low) 0 (-99999999) 0).2
          (mid + 1) = bestLeft v low mid := by
        rw [hA3, hcntL] at hLval
        omega
      have hRsum : sumRange v (mid + 1)
          ((rightloop v (mid + 1) (high - mid) 0 (-99999999) 0).2 + 1) =
          bestRight v mid high := by
        rw [hB3] at hRval
        omega
      refine ⟨⟨hA1, by omega, by omega, by omega⟩, by omega, ?_⟩
      intro i j hi1 hi2 hj1 hj2
      have hij : sumRange v i (j + 1) =
          sumRange v i (mid + 1) + sumRange v (mid + 1) (j + 1) :=
        sumRange_append v (by omega) (by omega)
      have hb1 := bestLeft_ge v low mid i hi1 hi2
      have hb2 := bestRight_ge v mid high j (by omega) hj2
      omega

/-- Witness for crossing_max_subarray_spec on the vector [1, 2, 3] with
low = 0, mid = 0, high = 1. -/
theorem crossing_max_subarray_spec_witness :
    (0 ≤ (crossing_max_subarray [1, 2, 3] 0 0 1).begin_ ∧
      (crossing_max_subarray [1, 2, 3] 0 0 1).begin_ ≤ 0 ∧
      0 + 1 < (crossing_max_subarray [1, 2, 3] 0 0 1).end_ ∧
      (crossing_max_subarray [1, 2, 3] 0 0 1).end_ ≤ 1 + 1) ∧
    (crossing_max_subarray [1, 2, 3] 0 0 1).sum =
      bestLeft [1, 2, 3] 0 0 + bestRight [1, 2, 3] 0 1 ∧
    (∀ i j, 0 ≤ i → i ≤ 0 → 0 < j → j ≤ 1 →
      sumRange [1, 2, 3] i (j + 1) ≤ (crossing_max_subarray [1, 2, 3] 0 0 1).sum) :=
  crossing_max_subarray_spec [1, 2, 3] 0 0 1 (by decide) (by decide) (by decide)
    (by decide) (by decide)

/-- Reduction of firstHit when the head hits. -/
theorem firstHit_cons_some {α β : Type} (f : α → Option β) (a : α) (l : List α) (b : β)
    (h : f a = some b) : firstHit f (a :: l) = some b := by
  simp [firstHit, h]

/-- Reduction of firstHit when the head misses. -/
theorem firstHit_cons_none {α β : Type} (f : α → Option β) (a : α) (l : List α)
    (h : f a = none) : firstHit f (a :: l) = firstHit f l := by
  simp [firstHit, h]

/-- A scan returns none exactly when every element misses. -/
theorem firstHit_none_iff {α β : Type} (f : α → Option β) :
    ∀ l : List α, firstHit f l = none ↔ ∀ a ∈ l, f a = none
  | [] => by simp [firstHit]
  | a :: l => by
    cases hfa : f a with
    | some b =>
      rw [firstHit_cons_some f a l b hfa]
      constructor
      · intro h; exact absurd h (by simp)
      · intro h; exact absurd (h a (List.mem_cons_self a l)) (by simp [hfa])
    | none =>
      rw [firstHit_cons_none f a l hfa, firstHit_none_iff f l]
      constructor
      · intro h x hx
        rcases List.mem_cons.mp hx with h1 | h1
        · rw [h1]; exact hfa
        · exact h x h1
      · intro h x hx
        exact h x (List.mem_cons_of_mem a hx)

/-- A hit in the first block survives appending a second block. -/
theorem firstHit_append_some {α β : Type} (f : α → Option β) :
    ∀ (l₁ l₂ : List α) (b : β), firstHit f l₁ = some b → firstHit f (l₁ ++ l₂) = some b
  | [], _, b, h => by simp [firstHit] at h
  | a :: l, l₂, b, h => by
    cases hfa : f a with
    | some c =>
      rw [firstHit_cons_some f a l c hfa] at h
      rw [List.cons_append, firstHit_cons_some f a _ c hfa]
      exact h
    | none =>
      rw [firstHit_cons_none f a l hfa] at h
      rw [List.cons_append, firstHit_cons_none f a _ hfa]
      exact firstHit_append_some f l l₂ b h

/-- A scan that misses its first block continues into the second. -/
theorem firstHit_append_none {α β : Type} (f : α → Option β) :
    ∀ (l₁ l₂ : List α), firstHit f l₁ = none → firstHit f (l₁ ++ l₂) = firstHit f l₂
  | [], _, _ => rfl
  | a :: l, l₂, h => by
    cases hfa : f a with
    | some c =>
      rw [firstHit_cons_some f a l c hfa] at h
      exact absurd h (by simp)
    | none =>
      rw [firstHit_cons_none f a l hfa] at h
      rw [List.cons_append, firstHit_cons_none f a _ hfa]
      exact firstHit_append_none f l l₂ h

/-- A hit on an ascending index scan identifies the first hitting index:
the returned value comes from some index below the bound at which f hits,
and every smaller index misses. -/
theorem firstHit_range {β : Type} (f : Nat → Option β) :
    ∀ (N : Nat) (b : β), firstHit f (List.range N) = some b →
      ∃ i, i < N ∧ f i = some b ∧ ∀ k, k < i → f k = none
  | 0, b, h => by simp [List.range_zero, firstHit] at h
  | N + 1, b, h => by
    rw [List.range_succ] at h
    cases hN : firstHit f (List.range N) with
    | some c =>
      rw [firstHit_append_some f (List.range N) [N] c hN] at h
      obtain rfl : c = b := by injection h
      obtain ⟨i, hi, hfi, hfirst⟩ := firstHit_range f N c hN
      exact ⟨i, by omega, hfi, hfirst⟩
    | none =>
      rw [firstHit_append_none f (List.range N) [N] hN] at h
      cases hfN : f N with
      | some c =>
        rw [firstHit_cons_some f N [] c hfN] at h
        obtain rfl : c = b := by injection h
        refine ⟨N, by omega, hfN, ?_⟩
        intro k hk
        exact (firstHit_none_iff f (List.range N)).mp hN k (List.mem_range.mpr hk)
      | none =>
        rw [firstHit_cons_none f N [] hfN] at h
        simp [firstHit] at h

/-- The zero mask selects nothing. -/
theorem selection_zero : ∀ v : List Int, selection v 0 = []
  | [] => rfl
  | a :: l => by simp [selection, selection_zero l]

/-- Only the low length-many bits of the mask matter to selection. -/
theorem selection_mod : ∀ (v : List Int) (m : Nat),
    selection v (m % 2 ^ v.length) = selection v m
  | [], m => by simp [selection, Nat.mod_one]
  | a :: l, m => by
    have h1 : m % 2 ^ (l.length + 1) % 2 = m % 2 :=
      Nat.mod_mod_of_dvd m (dvd_pow_self 2 (Nat.succ_ne_zero l.length))
    have h2 : m % 2 ^ (l.length + 1) / 2 = m / 2 % 2 ^ l.length := by
      rw [pow_succ, mul_comm]
      exact Nat.mod_mul_right_div_self m 2 (2 ^ l.length)
    simp only [List.length_cons, selection, h1, h2, selection_mod l (m / 2)]

/-- A selection preserves the relative input order of the chosen elements:
it is a sublist of the input. -/
theorem selection_sublist : ∀ (v : List Int) (m : Nat), (selection v m).Sublist v
  | [], _ => List.Sublist.refl _
  | a :: l, m => by
    simp only [selection]
    split
    · exact List.Sublist.cons₂ a (selection_sublist l (m / 2))
    · exact List.sublist_cons_of_sublist a (selection_sublist l (m / 2))

/-- A one-bit mask selects exactly the element at that bit position. -/
theorem selection_pow : ∀ (v : List Int) (k : Nat), k < v.length →
    selection v (2 ^ k) = [v.getD k 0]
  | a :: l, 0, _ => by simp [selection, selection_zero]
  | a :: l, k + 1, h => by
    have h1 : 2 ^ (k + 1) % 2 = 0 := by
      rw [pow_succ]
      exact Nat.mul_mod_left (2 ^ k) 2
    have h2 : 2 ^ (k + 1) / 2 = 2 ^ k := by
      rw [pow_succ]
      exact Nat.mul_div_cancel _ (by omega)
    simp only [selection, h1, h2]
    rw [if_neg (by omega), List.getD_cons_succ]
    exact selection_pow l k (by simpa using h)

/-- A hit of the inner loop is a non-empty candidate, cut from the low bits
of the mask at some processed position, whose sum is the target. -/
theorem innerLoop_some {v : List Int} {target : Int} {m : Nat} {r : List Int}
    (h : innerLoop v target m = some r) :
    ∃ j, j < v.length ∧ r = candAt v m j ∧ r ≠ [] ∧ r.sum = target := by
  unfold innerLoop at h
  obtain ⟨j, hj, hfj, _⟩ := firstHit_range (hitCheck v target m) v.length r h
  unfold hitCheck at hfj
  by_cases hc : candAt v m j ≠ [] ∧ (candAt v m j).sum = target
  · rw [if_pos hc] at hfj
    injection hfj with hfj
    exact ⟨j, hj, hfj.symm, hfj ▸ hc.1, hfj ▸ hc.2⟩
  · rw [if_neg hc] at hfj
    exact absurd hfj (by simp)

/-- A miss of the inner loop means no processed position ever held a
qualifying candidate. -/
theorem innerLoop_none {v : List Int} {target : Int} {m : Nat}
    (h : innerLoop v target m = none) (j : Nat) (hj : j < v.length) :
    ¬ (candAt v m j ≠ [] ∧ (candAt v m j).sum = target) := by
  unfold innerLoop at h
  have h1 := (firstHit_none_iff (hitCheck v target m) (List.range v.length)).mp h j
    (List.mem_range.mpr hj)
  unfold hitCheck at h1
  intro hc
  rw [if_pos hc] at h1
  exact absurd h1 (by simp)

/-- A mask below the bound whose full selection qualifies makes the inner
loop hit: at the last bit position the candidate is the full selection. -/
theorem innerLoop_ne_none (v : List Int) (target : Int) (m : Nat)
    (hv : v ≠ []) (hm : m < 2 ^ v.length)
    (hsel : selection v m ≠ []) (hsum : (selection v m).sum = target) :
    innerLoop v target m ≠ none := by
  intro h
  have hn : 0 < v.length := List.length_pos.mpr hv
  have hcand : candAt v m (v.length - 1) = selection v m := by
    unfold candAt
    have he : v.length - 1 + 1 = v.length := by omega
    rw [he, Nat.mod_eq_of_lt hm]
  exact innerLoop_none h (v.length - 1) (by omega) (by rw [hcand]; exact ⟨hsel, hsum⟩)

/-- A hit of the outer loop identifies the first hitting mask. -/
theorem subset_sum_exh_some {v : List Int} {target : Int} {r : List Int}
    (h : subset_sum_exh v target = some r) :
    ∃ i, i < 2 ^ v.length ∧ innerLoop v target i = some r ∧
      ∀ k, k < i → innerLoop v target k = none := by
  unfold subset_sum_exh at h
  exact firstHit_range (innerLoop v target) (2 ^ v.length) r h

/-- C4: whenever subset_sum_exh returns a present result, that result is
the selection of the numerically smallest mask whose selected elements sum
to the target; the selection is built by ascending bit position, so it
preserves the relative input order (it is a sublist of the input). -/
theorem subset_sum_exh_first_mask (v : List Int) (target : Int) (r : List Int)
    (hv : v ≠ []) (hlen : v.length < 64) (h : subset_sum_exh v target = some r) :
    ∃ m, r = selection v m ∧ r ≠ [] ∧ r.sum = target ∧ r.Sublist v ∧
      ∀ k, selection v k ≠ [] → (selection v k).sum = target → m ≤ k := by
  obtain ⟨i, hi, hinner, hprev⟩ := subset_sum_exh_some h
  obtain ⟨j, hj, hrc, hrne, hrsum⟩ := innerLoop_some hinner
  have hrp : r = selection v (i % 2 ^ (j + 1)) := hrc
  have hple : i % 2 ^ (j + 1) ≤ i := Nat.mod_le i (2 ^ (j + 1))
  refine ⟨i % 2 ^ (j + 1), hrp, hrne, hrsum, hrp ▸ selection_sublist v _, ?_⟩
  intro k hk1 hk2
  have hqk : k % 2 ^ v.length ≤ k := Nat.mod_le k _
  have hqlt : k % 2 ^ v.length < 2 ^ v.length := Nat.mod_lt k (by positivity)
  have hsel : selection v (k % 2 ^ v.length) = selection v k := selection_mod v k
  by_contra hcon
  have hqi : k % 2 ^ v.length < i := by omega
  exact innerLoop_ne_none v target (k % 2 ^ v.length) hv hqlt
    (by rw [hsel]; exact hk1) (by rw [hsel]; exact hk2) (hprev _ hqi)

/-- Witness for subset_sum_exh_first_mask on the input [1, 2] with target 3,
where the returned subset is [1, 2]. -/
theorem subset_sum_exh_first_mask_witness :
    ∃ m, ([1, 2] : List Int) = selection [1, 2] m ∧ ([1, 2] : List Int) ≠ [] ∧
      ([1, 2] : List Int).sum = 3 ∧ ([1, 2] : List Int).Sublist [1, 2] ∧
      ∀ k, selection [1, 2] k ≠ [] → (selection [1, 2] k).sum = 3 → m ≤ k :=
  subset_sum_exh_first_mask [1, 2] 3 [1, 2] (by decide) (by decide) (by decide)

/-- C5 (refuted): with 63 input elements the mask bound is computed at
line 197 as the expression 1 << 63 on the int-typed literal 1. For every
int width w up to 64 bits that shift is not defined: either the shift
amount reaches the width or the value 2^63 exceeds the largest int
2^(w-1) - 1. The computation of the 2^63 mask bound therefore overflows
the int type instead of enumerating all 2^63 subsets. -/
theorem subset_sum_exh_63_mask_bound_overflows (w : Nat) (hw : w ≤ 64) :
    ¬ shlOneDefined w 63 := by
  intro h
  obtain ⟨h1, h2⟩ := h
  have hw64 : w = 64 := by omega
  subst hw64
  have h3 : (2 : Nat) ^ (64 - 1) = 2 ^ 63 := by norm_num
  rw [h3] at h2
  have h4 : 0 < (2 : Nat) ^ 63 := Nat.two_pow_pos 63
  omega

/-- Witness for subset_sum_exh_63_mask_bound_overflows at the usual 32-bit
int width. -/
theorem subset_sum_exh_63_mask_bound_overflows_witness : ¬ shlOneDefined 32 63 :=
  subset_sum_exh_63_mask_bound_overflows 32 (by omega)

/-- C7: a present result of subset_sum_exh is never the empty selection,
even for target 0; when no non-empty selection sums to the target (in
particular when the empty subset is the only one that does) the result is
the absent optional; and when the input holds a zero element and the
target is 0, the result is present, non-empty, and sums to 0. -/
theorem subset_sum_exh_never_empty (v : List Int) (target : Int)
    (hv : v ≠ []) (hlen : v.length < 64) :
    (∀ r, subset_sum_exh v target = some r → r ≠ []) ∧
    ((∀ m : Nat, selection v m ≠ [] → (selection v m).sum ≠ target) →
      subset_sum_exh v target = none) ∧
    ((0 : Int) ∈ v → target = 0 →
      ∃ r, subset_sum_exh v target = some r ∧ r ≠ [] ∧ r.sum = 0) := by
  refine ⟨?_, ?_, ?_⟩
  · intro r h
    obtain ⟨i, _, hinner, _⟩ := subset_sum_exh_some h
    obtain ⟨j, _, _, hrne, _⟩ := innerLoop_some hinner
    exact hrne
  · intro hno
    cases hcase : subset_sum_exh v target with
    | none => rfl
    | some r =>
      obtain ⟨i, _, hinner, _⟩ := subset_sum_exh_some hcase
      obtain ⟨j, hj, hrc, hrne, hrsum⟩ := innerLoop_some hinner
      have hc : candAt v i j = selection v (i % 2 ^ (j + 1)) := rfl
      have h1 : selection v (i % 2 ^ (j + 1)) ≠ [] := by
        rw [← hc, ← hrc]; exact hrne
      have h2 : (selection v (i % 2 ^ (j + 1))).sum = target := by
        rw [← hc, ← hrc]; exact hrsum
      exact absurd h2 (hno _ h1)
  · intro h0 ht
    cases hcase : subset_sum_exh v target with
    | some r =>
      obtain ⟨i, _, hinner, _⟩ := subset_sum_exh_some hcase
      obtain ⟨j, _, _, hrne, hrsum⟩ := innerLoop_some hinner
      exact ⟨r, rfl, hrne, by rw [← ht]; exact hrsum⟩
    | none =>
      exfalso
      obtain ⟨kk, hkk, hkv⟩ := List.mem_iff_getElem.mp h0
      have hsel : selection v (2 ^ kk) = [v.getD kk 0] := selection_pow v kk hkk
      have hvkk : v.getD kk 0 = 0 := by
        rw [List.getD_eq_getElem v 0 hkk]
        exact hkv
      have hlt : 2 ^ kk < 2 ^ v.length := Nat.pow_lt_pow_right (by omega) hkk
      have hne := innerLoop_ne_none v target (2 ^ kk) hv hlt
        (by rw [hsel]; simp) (by rw [hsel, hvkk, ht]; simp)
      unfold subset_sum_exh at hcase
      exact hne ((firstHit_none_iff (innerLoop v target) (List.range (2 ^ v.length))).mp
        hcase (2 ^ kk) (List.mem_range.mpr hlt))

/-- Witness for subset_sum_exh_never_empty on the input [0] with target 0. -/
theorem subset_sum_exh_never_empty_witness :
    (∀ r, subset_sum_exh [0] 0 = some r → r ≠ []) ∧
    ((∀ m : Nat, selection [0] m ≠ [] → (selection [0] m).sum ≠ 0) →
      subset_sum_exh [0] 0 = none) ∧
    ((0 : Int) ∈ ([0] : List Int) → (0 : Int) = 0 →
      ∃ r, subset_sum_exh [0] 0 = some r ∧ r ≠ [] ∧ r.sum = 0) :=
  subset_sum_exh_never_empty [0] 0 (by decide) (by decide)
